import Mathlib

/-
  Verification of the ring buffer implementation (package buffer).

  The Go struct ringBuffer[T] is embedded as the structure RB below; the
  mutex only serializes operations and has no sequential content, so it is
  dropped.  Go slice indices and sizes are machine ints that the code keeps
  non-negative (decrements are guarded), so they are embedded as Nat; the
  construction-time capacity argument, which may be negative, is an Int.
  The Go zero value of T is embedded as `default` of an Inhabited instance.
-/

set_option maxHeartbeats 1000000
set_option linter.unusedSectionVars false

namespace RingBuf

inductive BufErr where
  | invalidBuffCap
  | bufferIsFull
deriving DecidableEq

structure RB (T : Type) where
  data : List T
  size : Nat
  cap : Nat
  writerIdx : Nat
  readerIdx : Nat
  lastWriterIdx : Nat
  wrapped : Bool
deriving DecidableEq

/-- shiftIdx advances an index, wrapping past cap-1 to 0; the Bool reports
the wrap, mirroring the Go helper of the same name. -/
def shiftIdx (c idx : Nat) : Nat × Bool :=
  if idx < c - 1 then (idx + 1, false) else (0, true)

variable {T : Type} [Inhabited T]

/-- writeZeroVal sets data[idx] to the zero value and decrements size when
it is positive, as in the Go method. -/
def writeZeroVal (rb : RB T) (idx : Nat) : RB T :=
  { rb with data := rb.data.set idx default,
            size := if 0 < rb.size then rb.size - 1 else rb.size }

/-- Push writes the item at writerIdx, records lastWriterIdx, increments
size while below the slice capacity, and advances writerIdx, setting the
wrapped flag on wrap-around. -/
def Push (rb : RB T) (item : T) : RB T :=
  let d := rb.data.set rb.writerIdx item
  let sz := if rb.size < rb.data.length then rb.size + 1 else rb.size
  let sh := shiftIdx rb.cap rb.writerIdx
  { rb with data := d, lastWriterIdx := rb.writerIdx, size := sz,
            writerIdx := sh.1, wrapped := if sh.2 then true else rb.wrapped }

/-- Size returns the current element count. -/
def Size (rb : RB T) : Nat := rb.size

/-- IsEmpty checks whether the buffer is empty. -/
def IsEmpty (rb : RB T) : Bool := Size rb == 0

/-- IsFull compares size with the slice capacity. -/
def IsFull (rb : RB T) : Bool := rb.size == rb.data.length

/-- TryPush fails with ErrBufferIsFull when the buffer is full and leaves
it untouched; otherwise it delegates to Push and reports no error. -/
def TryPush (rb : RB T) (item : T) : RB T × Option BufErr :=
  if IsFull rb then (rb, some BufErr.bufferIsFull)
  else (Push rb item, none)

/-- Pop returns the zero value and false on an empty buffer; otherwise it
reads data[readerIdx], scrubs that slot (which also decrements size via
writeZeroVal), advances readerIdx and clears the wrapped flag on
wrap-around. -/
def Pop (rb : RB T) : (T × Bool) × RB T :=
  if rb.size = 0 then ((default, false), rb)
  else
    let item := rb.data.getD rb.readerIdx default
    let rb1 := writeZeroVal rb rb.readerIdx
    let sh := shiftIdx rb1.cap rb1.readerIdx
    ((item, true),
      { rb1 with readerIdx := sh.1, wrapped := if sh.2 then false else rb1.wrapped })

/-- Get returns the element at readerIdx without mutation, or the zero
value and false when the buffer is empty. -/
def Get (rb : RB T) : T × Bool :=
  if rb.size = 0 then (default, false)
  else (rb.data.getD rb.readerIdx default, true)

/-- Clear is a no-op on an empty buffer; otherwise it resets both cursors,
lastWriterIdx, the wrapped flag and size, leaving the slots untouched. -/
def Clear (rb : RB T) : RB T :=
  if IsEmpty rb then rb
  else { rb with writerIdx := 0, readerIdx := 0, lastWriterIdx := 0,
                 wrapped := false, size := 0 }

/-- DeepClear is a no-op on an empty buffer; otherwise it runs writeZeroVal
over every slot index, scrubbing all cells (cursors are not reset). -/
def DeepClear (rb : RB T) : RB T :=
  if IsEmpty rb then rb
  else (List.range rb.data.length).foldl writeZeroVal rb

/-- New rejects capacities below 1 with ErrInvalidBuffCap and otherwise
builds a buffer of that many zero-valued slots with zeroed cursors. -/
def New (T : Type) [Inhabited T] (capacity : Int) : Except BufErr (RB T) :=
  if capacity < 1 then Except.error BufErr.invalidBuffCap
  else Except.ok { data := List.replicate capacity.toNat default, size := 0,
                   cap := capacity.toNat, writerIdx := 0, readerIdx := 0,
                   lastWriterIdx := 0, wrapped := false }

/-- The freshly constructed buffer of a positive capacity, as New builds it. -/
def freshBuf (T : Type) [Inhabited T] (c : Nat) : RB T :=
  { data := List.replicate c default, size := 0, cap := c,
    writerIdx := 0, readerIdx := 0, lastWriterIdx := 0, wrapped := false }

/-- One public mutating operation of the interface (Get is listed too: it
mutates nothing). -/
inductive Op (T : Type) where
  | push (x : T)
  | tryPush (x : T)
  | pop
  | get
  | clear
  | deepClear

/-- The state after running one operation. -/
def applyOp (rb : RB T) : Op T → RB T
  | Op.push x => Push rb x
  | Op.tryPush x => (TryPush rb x).1
  | Op.pop => (Pop rb).2
  | Op.get => rb
  | Op.clear => Clear rb
  | Op.deepClear => DeepClear rb

/-- States reachable from a successful construction by any operation
sequence. -/
inductive Reachable : RB T → Prop where
  | start (capacity : Int) (rb : RB T) :
      New T capacity = Except.ok rb → Reachable rb
  | step (rb : RB T) (op : Op T) :
      Reachable rb → Reachable (applyOp rb op)

/-- Push every element of the list in order. -/
def pushAll (rb : RB T) (xs : List T) : RB T := xs.foldl Push rb

/-- Pop up to n times, collecting the returned values, stopping at the
first report of emptiness; also returns the final state. -/
def drainAux : Nat → RB T → List T × RB T
  | 0, rb => ([], rb)
  | n + 1, rb =>
      let r := Pop rb
      if r.1.2 then
        let rest := drainAux n r.2
        (r.1.1 :: rest.1, rest.2)
      else ([], rb)

/-- The slot indices that the next n pops read, in order. -/
def liveIdxs : Nat → RB T → List Nat
  | 0, _ => []
  | n + 1, rb =>
      if rb.size = 0 then [] else rb.readerIdx :: liveIdxs n (Pop rb).2

/-- The live slots of a state: the indices its remaining pops read. -/
def liveSlots (rb : RB T) : List Nat := liveIdxs rb.size rb

/-- The slot indices in the window from readerIdx (inclusive) to writerIdx
(exclusive), taken modulo capacity. -/
def windowRW (rb : RB T) : List Nat :=
  (List.range ((rb.writerIdx + rb.cap - rb.readerIdx) % rb.cap)).map
    (fun t => (rb.readerIdx + t) % rb.cap)

/-- The basic field invariant of a well-formed buffer. -/
def Inv (rb : RB T) : Prop :=
  rb.size ≤ rb.cap ∧ rb.writerIdx < rb.cap ∧ rb.readerIdx < rb.cap ∧
    rb.data.length = rb.cap ∧ 1 ≤ rb.cap

/-- shiftIdx keeps an index below a positive capacity. -/
lemma shiftIdx_lt (c idx : Nat) (hc : 1 ≤ c) : (shiftIdx c idx).1 < c := by
  simp only [shiftIdx]; split <;> simp <;> omega

/-- shiftIdx is the successor modulo c on indices below c. -/
lemma shiftIdx_mod (c idx : Nat) (h : idx < c) : (shiftIdx c idx).1 = (idx + 1) % c := by
  simp only [shiftIdx]; split
  · rw [Nat.mod_eq_of_lt (by omega)]
  · have he : idx = c - 1 := by omega
    have he2 : idx + 1 = c := by omega
    rw [he2, Nat.mod_self]

/-- Folding writeZeroVal over any index list keeps cap, both cursors and
the slot count, and never increases size. -/
lemma foldl_writeZero_fields (l : List Nat) (rb : RB T) :
    (l.foldl writeZeroVal rb).cap = rb.cap ∧
    (l.foldl writeZeroVal rb).writerIdx = rb.writerIdx ∧
    (l.foldl writeZeroVal rb).readerIdx = rb.readerIdx ∧
    (l.foldl writeZeroVal rb).data.length = rb.data.length ∧
    (l.foldl writeZeroVal rb).size ≤ rb.size := by
  induction l generalizing rb with
  | nil => simp
  | cons a l ih =>
      simp only [List.foldl_cons]
      rcases ih (writeZeroVal rb a) with ⟨h1, h2, h3, h4, h5⟩
      simp only [writeZeroVal] at h1 h2 h3 h4 h5
      refine ⟨h1, h2, h3, by simpa using h4, le_trans h5 (by split <;> omega)⟩

/-- Push preserves the field invariant. -/
lemma inv_push (rb : RB T) (x : T) (h : Inv rb) : Inv (Push rb x) := by
  obtain ⟨hs, hw, hr, hl, hc⟩ := h
  refine ⟨?_, ?_, hr, ?_, hc⟩
  · simp only [Push]; split <;> omega
  · simpa [Push] using shiftIdx_lt rb.cap rb.writerIdx hc
  · simpa [Push] using hl

/-- Push in explicit record form. -/
lemma Push_eq (rb : RB T) (x : T) :
    Push rb x =
      { rb with data := rb.data.set rb.writerIdx x,
                lastWriterIdx := rb.writerIdx,
                size := if rb.size < rb.data.length then rb.size + 1 else rb.size,
                writerIdx := (shiftIdx rb.cap rb.writerIdx).1,
                wrapped := if (shiftIdx rb.cap rb.writerIdx).2 then true else rb.wrapped } :=
  rfl

/-- Pop on a non-empty buffer in explicit record form. -/
lemma Pop_eq (rb : RB T) (h0 : rb.size ≠ 0) :
    Pop rb = ((rb.data.getD rb.readerIdx default, true),
      { rb with data := rb.data.set rb.readerIdx default,
                size := rb.size - 1,
                readerIdx := (shiftIdx rb.cap rb.readerIdx).1,
                wrapped := if (shiftIdx rb.cap rb.readerIdx).2 then false
                           else rb.wrapped }) := by
  have hpos : 0 < rb.size := Nat.pos_of_ne_zero h0
  simp [Pop, h0, writeZeroVal, hpos]

/-- Pop preserves the field invariant. -/
lemma inv_pop (rb : RB T) (h : Inv rb) : Inv (Pop rb).2 := by
  obtain ⟨hs, hw, hr, hl, hc⟩ := h
  by_cases h0 : rb.size = 0
  · simp [Pop, h0]; exact ⟨hs, hw, hr, hl, hc⟩
  · rw [Pop_eq rb h0]
    refine ⟨?_, ?_, ?_, ?_, ?_⟩ <;> dsimp only
    · omega
    · exact hw
    · exact shiftIdx_lt rb.cap rb.readerIdx hc
    · simpa using hl
    · exact hc

/-- TryPush preserves the field invariant. -/
lemma inv_tryPush (rb : RB T) (x : T) (h : Inv rb) : Inv (TryPush rb x).1 := by
  by_cases hf : IsFull rb
  · simpa [TryPush, hf]
  · simpa [TryPush, hf] using inv_push rb x h

/-- Clear on a non-empty buffer in explicit record form. -/
lemma Clear_eq (rb : RB T) (h0 : rb.size ≠ 0) :
    Clear rb = { rb with writerIdx := 0, readerIdx := 0, lastWriterIdx := 0,
                         wrapped := false, size := 0 } := by
  simp [Clear, IsEmpty, Size, h0]

/-- Clear preserves the field invariant. -/
lemma inv_clear (rb : RB T) (h : Inv rb) : Inv (Clear rb) := by
  obtain ⟨hs, hw, hr, hl, hc⟩ := h
  by_cases h0 : rb.size = 0
  · simp [Clear, IsEmpty, Size, h0]; exact ⟨hs, hw, hr, hl, hc⟩
  · rw [Clear_eq rb h0]
    refine ⟨?_, ?_, ?_, ?_, ?_⟩ <;> dsimp only
    · omega
    · omega
    · omega
    · exact hl
    · exact hc

/-- DeepClear preserves the field invariant. -/
lemma inv_deepClear (rb : RB T) (h : Inv rb) : Inv (DeepClear rb) := by
  obtain ⟨hs, hw, hr, hl, hc⟩ := h
  by_cases h0 : IsEmpty rb
  · simp [DeepClear, h0]; exact ⟨hs, hw, hr, hl, hc⟩
  · simp only [DeepClear, h0, if_false, Bool.false_eq_true]
    rcases foldl_writeZero_fields (List.range rb.data.length) rb with ⟨h1, h2, h3, h4, h5⟩
    exact ⟨by omega, by omega, by omega, by omega, by omega⟩

/-- A successful construction satisfies the field invariant. -/
lemma inv_new (capacity : Int) (rb : RB T) (h : New T capacity = Except.ok rb) :
    Inv rb := by
  unfold New at h
  split at h
  · cases h
  · rename_i hge
    cases h
    refine ⟨?_, ?_, ?_, ?_, ?_⟩ <;> dsimp only <;> first | omega | simp

/-- Every reachable state satisfies the field invariant. -/
lemma reachable_inv (s : RB T) (h : Reachable s) : Inv s := by
  induction h with
  | start c rb hn => exact inv_new c rb hn
  | step rb op _ ih =>
      cases op with
      | push x => exact inv_push rb x ih
      | tryPush x => exact inv_tryPush rb x ih
      | pop => exact inv_pop rb ih
      | get => exact ih
      | clear => exact inv_clear rb ih
      | deepClear => exact inv_deepClear rb ih

/-- New at a positive Nat capacity yields exactly the fresh buffer. -/
lemma new_ok_nat (c : Nat) (hc : 1 ≤ c) :
    New T (c : Int) = Except.ok (freshBuf T c) := by
  have h0 : ¬ ((c : Int) < 1) := by omega
  simp [New, h0, freshBuf]

/-- Pushing a list of items preserves reachability. -/
lemma reachable_pushAll (rb : RB T) (xs : List T) (h : Reachable rb) :
    Reachable (pushAll rb xs) := by
  induction xs generalizing rb with
  | nil => simpa [pushAll]
  | cons a l ih =>
      have hstep : Reachable (Push rb a) := Reachable.step rb (Op.push a) h
      simpa [pushAll] using ih (Push rb a) hstep

/-- C8: every reachable state keeps size between 0 and cap and both
cursors within [0, cap); the lower bounds are automatic in the Nat
embedding, mirroring the guarded decrements of the Go code. -/
theorem reachable_bounds_thm (s : RB T) (h : Reachable s) :
    s.size ≤ s.cap ∧ s.writerIdx < s.cap ∧ s.readerIdx < s.cap := by
  obtain ⟨h1, h2, h3, _, _⟩ := reachable_inv s h
  exact ⟨h1, h2, h3⟩

/-- Witness for reachable_bounds_thm after one push on a two-slot buffer. -/
theorem reachable_bounds_witness :
    (Push (freshBuf Int 2) 4).size ≤ (Push (freshBuf Int 2) 4).cap := by
  have hreach : Reachable (Push (freshBuf Int 2) 4) :=
    Reachable.step _ (Op.push 4) (Reachable.start 2 (freshBuf Int 2) (new_ok_nat 2 (by omega)))
  exact (reachable_bounds_thm _ hreach).1

/-- The indices read by the next n pops are readerIdx + t modulo cap. -/
lemma liveIdxs_spec : ∀ (n : Nat) (s : RB T), s.size = n → s.readerIdx < s.cap →
    liveIdxs n s = (List.range n).map (fun t => (s.readerIdx + t) % s.cap) := by
  intro n
  induction n with
  | zero => intro s h hr; simp [liveIdxs]
  | succ n ih =>
      intro s h hr
      have h0 : s.size ≠ 0 := by omega
      have hcpos : 0 < s.cap := by omega
      have hr2 : ((Pop s).2).readerIdx = (s.readerIdx + 1) % s.cap := by
        rw [Pop_eq s h0]; exact shiftIdx_mod _ _ hr
      have hs2 : ((Pop s).2).size = n := by rw [Pop_eq s h0]; dsimp only; omega
      have hcap2 : ((Pop s).2).cap = s.cap := by rw [Pop_eq s h0]
      have hih := ih (Pop s).2 hs2 (by rw [hr2, hcap2]; exact Nat.mod_lt _ hcpos)
      have hcons : liveIdxs (n + 1) s = s.readerIdx :: liveIdxs n (Pop s).2 := by
        simp [liveIdxs, h0]
      rw [hcons, hih, hr2, hcap2, List.range_succ_eq_map]
      simp only [List.map_cons, List.map_map]
      congr 1
      · rw [Nat.add_zero, Nat.mod_eq_of_lt hr]
      · apply List.map_congr_left
        intro t ht
        simp only [Function.comp]
        rw [Nat.mod_add_mod]
        congr 1
        omega

/-- C2 (amended): in every reachable state the slots read by the remaining
pops, i.e. the live slots, are exactly the window [readerIdx,
readerIdx + size) modulo cap: every slot when size = cap and no slot when
size = 0.  The window [readerIdx, writerIdx) of the original claim is
refuted by live_window_cex. -/
theorem live_slots_window (s : RB T) (h : Reachable s) :
    liveSlots s = (List.range s.size).map (fun t => (s.readerIdx + t) % s.cap) ∧
    (s.size = 0 → liveSlots s = []) ∧
    (s.size = s.cap → ∀ i, i < s.cap → i ∈ liveSlots s) := by
  obtain ⟨hs, hw, hr, hl, hc⟩ := reachable_inv s h
  have hmain := liveIdxs_spec s.size s rfl hr
  refine ⟨hmain, ?_, ?_⟩
  · intro h0
    rw [liveSlots, h0]
    simp [liveIdxs]
  · intro hfull i hi
    have hls : liveSlots s = liveIdxs s.size s := rfl
    rw [hls, hmain]
    simp only [List.mem_map, List.mem_range]
    refine ⟨(s.cap + i - s.readerIdx) % s.cap, ?_, ?_⟩
    · rw [hfull]; exact Nat.mod_lt _ (by omega)
    · rw [Nat.add_mod_mod]
      have harith : s.readerIdx + (s.cap + i - s.readerIdx) = s.cap + i := by omega
      rw [harith, Nat.add_mod_left, Nat.mod_eq_of_lt hi]

/-- Witness for live_slots_window on a fresh (empty) two-slot buffer. -/
theorem live_slots_window_witness : liveSlots (freshBuf Int 2) = [] := by
  have h : Reachable (freshBuf Int 2) :=
    Reachable.start 2 _ (new_ok_nat 2 (by omega))
  exact (live_slots_window _ h).2.1 rfl

/-- A reachable state refuting the original window claim: capacity 3,
pushes 1..5, then one pop. -/
def cexState : RB Int := (Pop (pushAll (freshBuf Int 3) [1, 2, 3, 4, 5])).2

/-- C2 counterexample: in the reachable state cexState, size is strictly
between 0 and cap, yet slot 2 is live (the second remaining pop reads it)
while the window [readerIdx, writerIdx) modulo cap does not contain it. -/
theorem live_window_cex :
    Reachable cexState ∧ 0 < cexState.size ∧ cexState.size < cexState.cap ∧
    2 ∈ liveSlots cexState ∧ ¬ 2 ∈ windowRW cexState := by
  refine ⟨?_, by decide, by decide, by decide, by decide⟩
  exact Reachable.step _ Op.pop
    (reachable_pushAll (freshBuf Int 3) [1, 2, 3, 4, 5]
      (Reachable.start 3 _ (new_ok_nat 3 (by omega))))

/-- Folding writeZeroVal only rewrites the data through plain set calls. -/
lemma foldl_writeZero_data (l : List Nat) (rb : RB T) :
    (l.foldl writeZeroVal rb).data =
      l.foldl (fun d i => d.set i (default : T)) rb.data := by
  induction l generalizing rb with
  | nil => rfl
  | cons a l ih => simp [List.foldl_cons, ih, writeZeroVal]

/-- Folding set-to-default keeps the length. -/
lemma foldl_set_length (l : List Nat) (d : List T) :
    (l.foldl (fun d i => d.set i (default : T)) d).length = d.length := by
  induction l generalizing d with
  | nil => rfl
  | cons a l ih => simp [List.foldl_cons, ih]

/-- Reading after a fold of set-to-default: indices in the list read the
default, the others read the original. -/
lemma foldl_set_getD (l : List Nat) (d : List T) (j : Nat) (hj : j < d.length) :
    (l.foldl (fun d i => d.set i (default : T)) d).getD j default =
      if j ∈ l then default else d.getD j default := by
  induction l generalizing d with
  | nil => simp
  | cons a l ih =>
      simp only [List.foldl_cons]
      rw [ih (d.set a default) (by simpa using hj)]
      by_cases hm : j ∈ l
      · simp [hm]
      · by_cases ha : j = a
        · subst ha
          simp [hm, List.getD_eq_getElem?_getD, List.getElem?_set_self hj]
        · have ha2 : a ≠ j := fun hh => ha hh.symm
          simp [hm, ha, List.getD_eq_getElem?_getD, List.getElem?_set_ne ha2]

/-- A list whose entries all read default is the all-default list. -/
lemma eq_replicate_of_getD (d : List T)
    (h : ∀ j, j < d.length → d.getD j default = default) :
    d = List.replicate d.length default := by
  apply List.ext_getElem
  · simp
  · intro i h1 h2
    have hd := h i h1
    rw [List.getD_eq_getElem?_getD, List.getElem?_eq_getElem h1] at hd
    simpa using hd

/-- C3 (amended): DeepClear on a buffer of positive size overwrites every
one of the underlying slots with the zero value; on a logically empty
buffer (size 0, e.g. right after Clear) it is a no-op, so stale slot
contents survive it, as deepClear_after_clear_cex shows. -/
theorem deepClear_scrubs (s : RB T) :
    (0 < s.size → (DeepClear s).data = List.replicate s.data.length default) ∧
    (s.size = 0 → DeepClear s = s) := by
  constructor
  · intro h
    have h0 : ¬ IsEmpty s = true := by simp [IsEmpty, Size]; omega
    simp only [DeepClear, h0, if_false, Bool.false_eq_true]
    rw [foldl_writeZero_data]
    have hlen := foldl_set_length (List.range s.data.length) s.data
    have hget := fun j hj => foldl_set_getD (List.range s.data.length) s.data j hj
    have hrep := eq_replicate_of_getD
      ((List.range s.data.length).foldl (fun d i => d.set i (default : T)) s.data)
      (by
        intro j hj
        rw [hlen] at hj
        rw [hget j hj]
        simp [List.mem_range, hj])
    rw [hrep, hlen]
  · intro h
    simp [DeepClear, IsEmpty, Size, h]

/-- Witness for deepClear_scrubs after one push on a two-slot buffer. -/
theorem deepClear_scrubs_witness :
    (DeepClear (Push (freshBuf Int 2) 42)).data =
      List.replicate (Push (freshBuf Int 2) 42).data.length (default : Int) :=
  (deepClear_scrubs _).1 (by decide)

/-- C3 counterexample: push 42 into a two-slot buffer, Clear (logically
empty, stale contents), then DeepClear: the call leaves slot 0 holding 42
instead of scrubbing every slot to zero. -/
theorem deepClear_after_clear_cex :
    (Clear (Push (freshBuf Int 2) 42)).size = 0 ∧
    (DeepClear (Clear (Push (freshBuf Int 2) 42))).data = [42, 0] ∧
    ¬ (DeepClear (Clear (Push (freshBuf Int 2) 42))).data =
        List.replicate 2 (default : Int) := by
  refine ⟨by decide, by decide, by decide⟩

/-- C4: Clear on an empty buffer leaves the state unchanged; on a non-empty
buffer it resets the write cursor, read cursor and wrapped flag to zero and
size to 0, leaving every slot of data unchanged (lastWriterIdx is also
reset, which the claim does not forbid). -/
theorem clear_spec_thm (s : RB T) :
    (s.size = 0 → Clear s = s) ∧
    (0 < s.size →
      (Clear s).writerIdx = 0 ∧ (Clear s).readerIdx = 0 ∧
      (Clear s).wrapped = false ∧ (Clear s).size = 0 ∧ (Clear s).data = s.data) := by
  constructor
  · intro h; simp [Clear, IsEmpty, Size, h]
  · intro h
    have h0 : ¬ s.size = 0 := by omega
    simp [Clear, IsEmpty, Size, h0]

/-- Witness for clear_spec_thm at a concrete one-slot buffer holding 5. -/
theorem clear_spec_witness :
    (Clear (Push (freshBuf Int 1) 5)).data = (Push (freshBuf Int 1) 5).data ∧
    (Clear (Push (freshBuf Int 1) 5)).size = 0 ∧
    Clear (freshBuf Int 1) = freshBuf Int 1 := by
  have h := clear_spec_thm (Push (freshBuf Int 1) 5)
  have h0 := clear_spec_thm (freshBuf Int 1)
  exact ⟨(h.2 (by decide)).2.2.2.2, (h.2 (by decide)).2.2.2.1, h0.1 (by decide)⟩

/-- C5: TryPush returns ErrBufferIsFull and leaves the whole state
unchanged exactly when size equals the slice capacity; otherwise it
behaves exactly as Push and reports no error. -/
theorem tryPush_spec_thm (s : RB T) (x : T) :
    (s.size = s.data.length → TryPush s x = (s, some BufErr.bufferIsFull)) ∧
    (s.size ≠ s.data.length → TryPush s x = (Push s x, none)) := by
  constructor <;> intro h <;> simp [TryPush, IsFull, h]

/-- Witness for tryPush_spec_thm on a full and on an empty one-slot buffer. -/
theorem tryPush_spec_witness :
    TryPush (Push (freshBuf Int 1) 5) 7 = (Push (freshBuf Int 1) 5, some BufErr.bufferIsFull) ∧
    TryPush (freshBuf Int 1) 7 = (Push (freshBuf Int 1) 7, none) :=
  ⟨(tryPush_spec_thm _ 7).1 (by decide), (tryPush_spec_thm _ 7).2 (by decide)⟩

/-- C6: on a buffer of size 0, Pop returns the zero value with false and
the state completely unchanged, and Get returns the zero value with false
(and never mutates); hence repeating either call gives the same result. -/
theorem pop_get_empty_thm (s : RB T) (h : s.size = 0) :
    Pop s = ((default, false), s) ∧ Get s = (default, false) := by
  constructor <;> simp [Pop, Get, h]

/-- Witness for pop_get_empty_thm at a fresh two-slot buffer. -/
theorem pop_get_empty_witness :
    Pop (freshBuf Int 2) = ((default, false), freshBuf Int 2) ∧
    Get (freshBuf Int 2) = (default, false) :=
  pop_get_empty_thm (freshBuf Int 2) (by decide)

/-- C7: New returns ErrInvalidBuffCap and no buffer exactly when the
requested capacity is below 1; otherwise it returns the fresh buffer with
that many zero-valued slots, size 0 and zeroed cursors and flag. -/
theorem new_spec_thm (capacity : Int) :
    (capacity < 1 → New T capacity = Except.error BufErr.invalidBuffCap) ∧
    (1 ≤ capacity →
      New T capacity = Except.ok (freshBuf T capacity.toNat) ∧
      (freshBuf T capacity.toNat).data = List.replicate capacity.toNat default ∧
      (freshBuf T capacity.toNat).size = 0 ∧
      (freshBuf T capacity.toNat).writerIdx = 0 ∧
      (freshBuf T capacity.toNat).readerIdx = 0 ∧
      (freshBuf T capacity.toNat).wrapped = false) := by
  constructor
  · intro h; simp [New, h]
  · intro h
    have h0 : ¬ capacity < 1 := by omega
    simp [New, freshBuf, h0]

/-- Witness for new_spec_thm at capacities 0 and 2. -/
theorem new_spec_witness :
    New Int 0 = Except.error BufErr.invalidBuffCap ∧
    New Int 2 = Except.ok (freshBuf Int 2) :=
  ⟨(new_spec_thm 0).1 (by decide), ((new_spec_thm 2).2 (by decide)).1⟩

/-- C9: on any buffer with positive size, the value and ok flag returned by
Pop coincide with those returned by Get on the same state: both read the
slot at readerIdx and both report true. -/
theorem pop_get_agree_thm (s : RB T) (h : 0 < s.size) :
    (Pop s).1 = Get s ∧ (Pop s).1 = (s.data.getD s.readerIdx default, true) := by
  have h0 : ¬ s.size = 0 := by omega
  constructor <;> simp [Pop, Get, h0]

/-- Witness for pop_get_agree_thm on a two-slot buffer holding one item. -/
theorem pop_get_agree_witness :
    (Pop (Push (freshBuf Int 2) 9)).1 = Get (Push (freshBuf Int 2) 9) :=
  (pop_get_agree_thm _ (by decide)).1

/-- Advancing the cursor value m mod c by shiftIdx lands on m+1 mod c. -/
lemma shiftIdx_succ_mod (c m : Nat) (hc : 1 ≤ c) :
    (shiftIdx c (m % c)).1 = (m + 1) % c := by
  rw [shiftIdx_mod c (m % c) (Nat.mod_lt _ (by omega))]
  rw [Nat.mod_add_mod]

/-- Taking the predecessor before a nonzero remainder decrements it. -/
lemma mod_pred_of_ne (c t : Nat) (hc : 1 ≤ c) (ht : 1 ≤ t) (h0 : t % c ≠ 0) :
    (t - 1) % c = t % c - 1 := by
  have hd := Nat.div_add_mod t c
  have hrlt : t % c < c := Nat.mod_lt _ (by omega)
  have h1 : t - 1 = c * (t / c) + (t % c - 1) := by omega
  rw [h1, Nat.mul_add_mod, Nat.mod_eq_of_lt (by omega)]

/-- If c divides m - i with i below c and m, then i is the residue of m. -/
lemma mod_eq_of_sub_mod_zero (c m i : Nat) (hc : 1 ≤ c) (hi : i < c) (him : i ≤ m)
    (h0 : (m - i) % c = 0) : m % c = i := by
  obtain ⟨t, ht⟩ := Nat.dvd_of_mod_eq_zero h0
  have hm : m = i + c * t := by omega
  rw [hm, Nat.add_mul_mod_self_left, Nat.mod_eq_of_lt hi]

/-- The position of the most recent write into slot i after m pushes
wrap-fill a buffer of capacity c. -/
def lastHit (m c i : Nat) : Nat := m - 1 - ((m - 1 - i) % c)

/-- After one more push, the slot at the old cursor records position m. -/
lemma lastHit_self (c m : Nat) (hc : 1 ≤ c) : lastHit (m + 1) c (m % c) = m := by
  have hd := Nat.div_add_mod m c
  unfold lastHit
  have h2 : m + 1 - 1 = m := by omega
  rw [h2]
  have h3 : m - m % c = c * (m / c) := by omega
  rw [h3, Nat.mul_mod_right]
  omega

/-- A push at a different slot keeps the last-write position of slot i,
which stays strictly below m. -/
lemma lastHit_step (c m i : Nat) (hc : 1 ≤ c) (hic : i < c) (him : i < m)
    (hne : i ≠ m % c) :
    lastHit (m + 1) c i = lastHit m c i ∧ lastHit m c i < m := by
  have hd0 : (m - i) % c ≠ 0 := fun h0 =>
    hne (mod_eq_of_sub_mod_zero c m i hc hic (by omega) h0).symm
  have ht : 1 ≤ m - i := by omega
  have hpred := mod_pred_of_ne c (m - i) hc ht hd0
  have hdlt : (m - i) % c < c := Nat.mod_lt _ (by omega)
  have hdle : (m - i) % c ≤ m - i := Nat.mod_le _ _
  constructor
  · unfold lastHit
    have e1 : m + 1 - 1 = m := by omega
    have e2 : m - 1 - i = m - i - 1 := by omega
    rw [e1, e2, hpred]
    omega
  · unfold lastHit
    have e2 : m - 1 - i = m - i - 1 := by omega
    rw [e2, hpred]
    omega

/-- The full state after pushing a list onto the fresh buffer: both the
cursor arithmetic and, slot by slot, the most recent value written there. -/
lemma pushAll_fresh_spec (c : Nat) (hc : 1 ≤ c) (xs : List T) :
    (pushAll (freshBuf T c) xs).cap = c ∧
    (pushAll (freshBuf T c) xs).data.length = c ∧
    (pushAll (freshBuf T c) xs).readerIdx = 0 ∧
    (pushAll (freshBuf T c) xs).writerIdx = xs.length % c ∧
    (pushAll (freshBuf T c) xs).size = min xs.length c ∧
    (∀ i, i < c → (pushAll (freshBuf T c) xs).data.getD i default =
      if i < xs.length then xs.getD (lastHit xs.length c i) default else default) := by
  induction xs using List.reverseRecOn with
  | nil =>
      refine ⟨rfl, by simp [pushAll, freshBuf], rfl, by simp [pushAll, freshBuf],
        by simp [pushAll, freshBuf], ?_⟩
      intro i hi
      simp [pushAll, freshBuf, List.getD_eq_getElem?_getD, List.getElem?_replicate, hi]
  | append_singleton l a ih =>
      obtain ⟨hcap, hlen2, hrd, hw, hsz, hdata⟩ := ih
      have hfold : pushAll (freshBuf T c) (l ++ [a]) = Push (pushAll (freshBuf T c) l) a := by
        simp [pushAll]
      refine ⟨?_, ?_, ?_, ?_, ?_, ?_⟩
      · rw [hfold, Push_eq]; dsimp only; exact hcap
      · rw [hfold, Push_eq]; dsimp only; simpa using hlen2
      · rw [hfold, Push_eq]
        dsimp only
        exact hrd
      · rw [hfold, Push_eq]
        dsimp only
        rw [hcap, hw, shiftIdx_succ_mod c l.length hc]
        simp [List.length_append]
      · rw [hfold, Push_eq]
        dsimp only
        rw [hsz, hlen2]
        simp only [List.length_append, List.length_singleton]
        split <;> omega
      · intro i hi
        rw [hfold, Push_eq]
        dsimp only
        rw [hw]
        simp only [List.length_append, List.length_singleton]
        by_cases hieq : i = l.length % c
        · subst hieq
          rw [List.getD_eq_getElem?_getD,
            List.getElem?_set_self (by rw [hlen2]; exact Nat.mod_lt _ (by omega))]
          have hlt : l.length % c < l.length + 1 := by
            have := Nat.mod_le l.length c; omega
          rw [if_pos hlt, lastHit_self c l.length hc]
          rw [List.getD_eq_getElem?_getD, List.getElem?_append_right (le_refl l.length)]
          simp
        · have hset : l.length % c ≠ i := fun hh => hieq hh.symm
          rw [List.getD_eq_getElem?_getD, List.getElem?_set_ne hset,
            ← List.getD_eq_getElem?_getD]
          rw [hdata i hi]
          by_cases him : i < l.length
          · obtain ⟨hstep, hltm⟩ := lastHit_step c l.length i hc hi him hieq
            rw [if_pos him, if_pos (by omega), hstep]
            rw [List.getD_eq_getElem?_getD (l ++ [a]),
              List.getElem?_append_left hltm, ← List.getD_eq_getElem?_getD]
          · have hmc : l.length < c := by omega
            have hmm : l.length % c = l.length := Nat.mod_eq_of_lt hmc
            have hne2 : i ≠ l.length := by rw [hmm] at hieq; exact hieq
            rw [if_neg him, if_neg (by omega)]

/-- Draining a well-formed state of size n pops the n values sitting at
readerIdx + t modulo cap, and ends with size 0. -/
lemma drainAux_spec : ∀ (n : Nat) (s : RB T), s.size = n → n ≤ s.cap →
    s.readerIdx < s.cap → s.data.length = s.cap →
    (drainAux n s).1 =
      (List.range n).map (fun t => s.data.getD ((s.readerIdx + t) % s.cap) default) ∧
    (drainAux n s).2.size = 0 := by
  intro n
  induction n with
  | zero =>
      intro s h _ _ _
      exact ⟨by simp [drainAux], by simpa [drainAux] using h⟩
  | succ n ih =>
      intro s h hcap hr hl
      have h0 : s.size ≠ 0 := by omega
      have hcpos : 0 < s.cap := by omega
      have hpop := Pop_eq s h0
      have hstep : drainAux (n + 1) s =
          ((Pop s).1.1 :: (drainAux n (Pop s).2).1, (drainAux n (Pop s).2).2) := by
        simp only [drainAux, hpop]
        simp
      have hs2size : (Pop s).2.size = n := by rw [hpop]; dsimp only; omega
      have hs2cap : (Pop s).2.cap = s.cap := by rw [hpop]
      have hs2rd : (Pop s).2.readerIdx = (s.readerIdx + 1) % s.cap := by
        rw [hpop]; exact shiftIdx_mod _ _ hr
      have hs2len : (Pop s).2.data.length = (Pop s).2.cap := by
        rw [hpop]; dsimp only; simpa using hl
      have hs2d : (Pop s).2.data = s.data.set s.readerIdx default := by rw [hpop]
      have hih := ih (Pop s).2 hs2size (by omega)
        (by rw [hs2rd, hs2cap]; exact Nat.mod_lt _ hcpos) hs2len
      rw [hstep]
      refine ⟨?_, hih.2⟩
      dsimp only
      rw [hih.1, List.range_succ_eq_map]
      simp only [List.map_cons, List.map_map]
      congr 1
      · rw [hpop]
        dsimp only
        rw [Nat.add_zero, Nat.mod_eq_of_lt hr]
      · apply List.map_congr_left
        intro t ht
        have ht2 : t < n := List.mem_range.mp ht
        simp only [Function.comp]
        rw [hs2rd, hs2cap, hs2d]
        have hidx : ((s.readerIdx + 1) % s.cap + t) % s.cap =
            (s.readerIdx + (t + 1)) % s.cap := by
          rw [Nat.mod_add_mod]; congr 1; omega
        rw [hidx]
        have hne : s.readerIdx ≠ (s.readerIdx + (t + 1)) % s.cap := by
          intro heq
          have htc : t + 1 < s.cap := by omega
          by_cases hlt : s.readerIdx + (t + 1) < s.cap
          · rw [Nat.mod_eq_of_lt hlt] at heq; omega
          · have h2 : s.readerIdx + (t + 1) - s.cap < s.cap := by omega
            rw [Nat.mod_eq_sub_mod (by omega), Nat.mod_eq_of_lt h2] at heq
            omega
        rw [List.getD_eq_getElem?_getD, List.getD_eq_getElem?_getD,
          List.getElem?_set_ne hne]

/-- Reading every position of a list in order rebuilds the list. -/
lemma map_getD_range (d : List T) :
    (List.range d.length).map (fun t => d.getD t default) = d := by
  induction d with
  | nil => simp
  | cons x d ih =>
      rw [List.length_cons, List.range_succ_eq_map]
      simp only [List.map_cons, List.map_map]
      congr 1

/-- An in-bounds optional read is the defaulted read. -/
lemma getElem?_eq_some_getD (l : List T) (m : Nat) (h : m < l.length) :
    l[m]? = some (l.getD m default) := by
  rw [List.getD_eq_getElem?_getD, List.getElem?_eq_getElem h]
  rfl

/-- The closed form of lastHit on a wrapped buffer: slots below the final
cursor hold the very last items, the rest hold the earlier part of the
final window. -/
lemma lastHit_formula (c n i : Nat) (hc : 1 ≤ c) (hcn : c ≤ n) (hi : i < c) :
    lastHit n c i = if i < n % c then n - n % c + i else (n - c) + (i - n % c) := by
  have hd := Nat.div_add_mod n c
  have hrlt : n % c < c := Nat.mod_lt _ (by omega)
  by_cases hir : i < n % c
  · have h1 : n - 1 - i = c * (n / c) + (n % c - 1 - i) := by omega
    rw [lastHit, h1, Nat.mul_add_mod, Nat.mod_eq_of_lt (by omega), if_pos hir]
    omega
  · have hq1 : 0 < n / c := Nat.div_pos hcn (by omega)
    have hcq : c * (n / c) = c * (n / c - 1) + c := by
      have h2 : n / c - 1 + 1 = n / c := by omega
      calc c * (n / c) = c * (n / c - 1 + 1) := by rw [h2]
        _ = c * (n / c - 1) + c := by ring
    have h1 : n - 1 - i = c * (n / c - 1) + (c + n % c - 1 - i) := by omega
    rw [lastHit, h1, Nat.mul_add_mod, Nat.mod_eq_of_lt (by omega), if_neg hir]
    omega

/-- C1 (amended): pushing c + k items (k greater or equal 0) onto an empty
buffer of capacity c and then popping repeatedly returns exactly the last
c pushed items, each once, after which Pop reports empty; but the order is
the push order rotated: the last (k mod c) items come first, then the
remaining c - (k mod c) items of the final window, so it equals push order
only when c divides k.  The push-order claim is refuted by pop_order_cex. -/
theorem pushPop_lastWindow (c k : Nat) (xs : List T) (rb0 : RB T) (hc : 1 ≤ c)
    (hlen : xs.length = c + k) (hnew : New T (c : Int) = Except.ok rb0) :
    (drainAux c (pushAll rb0 xs)).1 =
        xs.drop (c + k - k % c) ++ (xs.drop k).take (c - k % c) ∧
    (drainAux c (pushAll rb0 xs)).1.Perm (xs.drop k) ∧
    Pop (drainAux c (pushAll rb0 xs)).2 =
      ((default, false), (drainAux c (pushAll rb0 xs)).2) := by
  rw [new_ok_nat c hc] at hnew
  injection hnew with hrb0
  subst hrb0
  obtain ⟨hcap, hlenq, hrd, hw, hsz, hdata⟩ := pushAll_fresh_spec c hc xs
  have hrlt : k % c < c := Nat.mod_lt _ (by omega)
  have hsize : (pushAll (freshBuf T c) xs).size = c := by
    rw [hsz, hlen]; omega
  have hds := drainAux_spec c (pushAll (freshBuf T c) xs) hsize
    (by rw [hcap]) (by rw [hrd, hcap]; omega) (by rw [hlenq, hcap])
  have hdrain : (drainAux c (pushAll (freshBuf T c) xs)).1 =
      (pushAll (freshBuf T c) xs).data := by
    rw [hds.1]
    have hmap : ∀ t ∈ List.range c,
        (pushAll (freshBuf T c) xs).data.getD
          (((pushAll (freshBuf T c) xs).readerIdx + t) %
            (pushAll (freshBuf T c) xs).cap) default =
        (pushAll (freshBuf T c) xs).data.getD t default := by
      intro t ht
      rw [hrd, hcap, Nat.zero_add, Nat.mod_eq_of_lt (List.mem_range.mp ht)]
    rw [List.map_congr_left hmap]
    have hrange := map_getD_range (pushAll (freshBuf T c) xs).data
    rw [hlenq] at hrange
    exact hrange
  have hmodeq : (c + k) % c = k % c := Nat.add_mod_left c k
  have hdata_eq : (pushAll (freshBuf T c) xs).data =
      xs.drop (c + k - k % c) ++ (xs.drop k).take (c - k % c) := by
    apply List.ext_getElem?
    intro j
    by_cases hj : j < c
    · have hjlen : j < (pushAll (freshBuf T c) xs).data.length := by
        rw [hlenq]; exact hj
      rw [getElem?_eq_some_getD _ j hjlen, hdata j hj, if_pos (by omega), hlen]
      have hlast := lastHit_formula c (c + k) j hc (by omega) hj
      rw [hmodeq] at hlast
      have hlenA : (xs.drop (c + k - k % c)).length = k % c := by
        rw [List.length_drop, hlen]; omega
      by_cases hir : j < k % c
      · rw [if_pos hir] at hlast
        rw [hlast, List.getElem?_append, if_pos (by rw [hlenA]; exact hir),
          List.getElem?_drop]
        rw [getElem?_eq_some_getD xs (c + k - k % c + j) (by rw [hlen]; omega)]
      · rw [if_neg hir] at hlast
        rw [hlast, List.getElem?_append, if_neg (by rw [hlenA]; exact hir), hlenA]
        rw [List.getElem?_take_of_lt (by omega), List.getElem?_drop]
        have harith : c + k - c + (j - k % c) = k + (j - k % c) := by omega
        rw [harith]
        rw [getElem?_eq_some_getD xs (k + (j - k % c)) (by rw [hlen]; omega)]
    · rw [List.getElem?_eq_none (by rw [hlenq]; omega),
        List.getElem?_eq_none (by
          simp only [List.length_append, List.length_drop, List.length_take, hlen]
          omega)]
  refine ⟨?_, ?_, ?_⟩
  · rw [hdrain, hdata_eq]
  · rw [hdrain, hdata_eq]
    have hdd : (xs.drop k).drop (c - k % c) = xs.drop (c + k - k % c) := by
      rw [List.drop_drop]
      congr 1
      omega
    have hsplit : (xs.drop k).take (c - k % c) ++ xs.drop (c + k - k % c) =
        xs.drop k := by
      rw [← hdd, List.take_append_drop]
    have hp := @List.perm_append_comm T
      (xs.drop (c + k - k % c)) ((xs.drop k).take (c - k % c))
    rw [hsplit] at hp
    exact hp
  · have h0 := hds.2
    simp [Pop, h0]

/-- C1 counterexample: capacity 3 and pushes 1..7 make repeated Pop return
7, 5, 6, not the last three pushed items 5, 6, 7 in push order. -/
theorem pop_order_cex :
    (drainAux 3 (pushAll (freshBuf Int 3) [1, 2, 3, 4, 5, 6, 7])).1 = [7, 5, 6] ∧
    ([1, 2, 3, 4, 5, 6, 7] : List Int).drop 4 = [5, 6, 7] ∧
    ¬ (drainAux 3 (pushAll (freshBuf Int 3) [1, 2, 3, 4, 5, 6, 7])).1 =
        ([1, 2, 3, 4, 5, 6, 7] : List Int).drop 4 := by
  refine ⟨by decide, by decide, by decide⟩

/-- Witness for pushPop_lastWindow at capacity 3, four pushed items. -/
theorem pushPop_lastWindow_witness :
    (drainAux 3 (pushAll (freshBuf Int 3) [1, 2, 3, 4])).1 =
      ([1, 2, 3, 4] : List Int).drop (3 + 1 - 1 % 3) ++
        (([1, 2, 3, 4] : List Int).drop 1).take (3 - 1 % 3) :=
  (pushPop_lastWindow 3 1 [1, 2, 3, 4] (freshBuf Int 3) (by omega) (by decide)
    (new_ok_nat 3 (by omega))).1

/-- C10: Push x writes x into the slot at the pre-call write cursor and
into no other slot; the read cursor, the cap field and the slot count are
unchanged. -/
theorem push_frame_thm (s : RB T) (x : T) (h : s.writerIdx < s.data.length) :
    (Push s x).data.getD s.writerIdx default = x ∧
    (∀ i, i ≠ s.writerIdx → (Push s x).data.getD i default = s.data.getD i default) ∧
    (Push s x).readerIdx = s.readerIdx ∧
    (Push s x).cap = s.cap ∧
    (Push s x).data.length = s.data.length := by
  refine ⟨?_, ?_, rfl, rfl, ?_⟩
  · simp [Push, List.getD_eq_getElem?_getD, List.getElem?_set_self h]
  · intro i hi
    simp [Push, List.getD_eq_getElem?_getD, List.getElem?_set_ne (Ne.symm hi)]
  · simp [Push]

/-- Witness for push_frame_thm on a fresh two-slot buffer. -/
theorem push_frame_witness :
    (Push (freshBuf Int 2) 3).data.getD (freshBuf Int 2).writerIdx default = 3 :=
  (push_frame_thm (freshBuf Int 2) 3 (by decide)).1

end RingBuf
